import Mathlib

/-!
Verification of the schema-validation engine underlying the example scripts
in `lib/builtin.py`, `lib/type.py`, `lib/required.py` and `lib/partial.py`.
The scripts are client code of a third-party validation library (schema
declaration, example data, load calls); the engine itself is not part of the
repository's sources, so it is modelled here from the specification's
contract (§3, §4.1 of the spec) and the behaviour documented in the scripts'
comments.  The concrete schemas and data sets of the scripts are embedded
verbatim below and used as test vectors.
-/

namespace SchemaVal

/-- Raw values appearing in the example records: text, integers, booleans
(spec §6: "each mapping field names to raw values (text, integers, booleans,
or absent)"). -/
inductive Value where
  | vStr (s : String)
  | vInt (n : Int)
  | vBool (b : Bool)
deriving Repr, DecidableEq

/-- Modelled from the spec: the closed enumeration of field kinds
{String, Integer, Email, URL} (spec §3 `type_kind`, §9 tagged-variant
design).  These correspond to `fields.Str`, `fields.Int`, `fields.Email`,
`fields.URL` in the scripts. -/
inductive TypeKind where
  | tString
  | tInteger
  | tEmail
  | tURL
deriving Repr, DecidableEq

/-- Modelled from the spec: a Field Specification (spec §3): a name, a type
kind, and whether the field is required (`fields.Str(required=True)` in the
scripts). -/
structure FieldSpec where
  name : String
  type_kind : TypeKind
  required : Bool
deriving Repr, DecidableEq

/-- A Schema is an ordered collection of Field Specifications (spec §3). -/
abbrev Schema := List FieldSpec

/-- A Record is a mapping from field name to raw value, represented as an
association list (spec §3). -/
abbrev Record := List (String × Value)

/-- Look a field name up in a record (first matching key wins). -/
def lookupField (r : Record) (k : String) : Option Value :=
  match r with
  | [] => none
  | (k2, v) :: rest => if k2 = k then some v else lookupField rest k

/-- Split a character list at every occurrence of the separator `c`; the
separators are dropped and the (possibly empty) chunks between them are
returned.  A list with no occurrence of `c` yields one chunk. -/
def splitOnChar (c : Char) : List Char → List (List Char)
  | [] => [[]]
  | x :: xs =>
    match splitOnChar c xs with
    | [] => if x = c then [[], []] else [[x]]
    | h :: t => if x = c then [] :: h :: t else (x :: h) :: t

/-- Modelled from the spec: the Email validator (spec §4.1 coercion rules):
the text must contain exactly one "@" (the split at "@" yields exactly two
parts), a non-empty local part, and a domain with at least one "." whose
dot-separated labels are all non-empty (which rules out consecutive dots,
a dot directly after the "@", and a trailing dot). -/
def emailValid (s : String) : Bool :=
  match splitOnChar '@' s.data with
  | [loc, dom] =>
    let labels := splitOnChar '.' dom
    !loc.isEmpty && decide (2 ≤ labels.length) && labels.all (fun l => !l.isEmpty)
  | _ => false

/-- Modelled from the spec: the URL validator (spec §4.1 coercion rules):
the text must begin with a recognized scheme followed by "://", the
recognized schemes being "http" and "https". -/
def urlValid (s : String) : Bool :=
  List.isPrefixOf "http://".data s.data || List.isPrefixOf "https://".data s.data

/-- Modelled from the spec: decimal integer parsing for the Integer field
kind: an optional leading minus sign followed by a non-empty run of decimal
digits (spec §4.1: "a string representing one; negative integers are
accepted"). -/
def parseIntString (s : String) : Option Int :=
  match s.data with
  | [] => none
  | c :: rest =>
    if c = '-' then
      if !rest.isEmpty && rest.all (·.isDigit) then
        some (-((rest.foldl (fun a d => a * 10 + (d.toNat - 48)) 0 : Nat) : Int))
      else none
    else
      if (c :: rest).all (·.isDigit) then
        some (((c :: rest).foldl (fun a d => a * 10 + (d.toNat - 48)) 0 : Nat) : Int)
      else none

/-- Modelled from the spec: per-kind coercion + validation of one present
value (spec §4.1 coercion rules), returning the coerced value or the list of
human-readable violation messages (spec §7: stable message strings). -/
def coerceValue (tk : TypeKind) (v : Value) : Except (List String) Value :=
  match tk with
  | .tString =>
    match v with
    | .vStr s => .ok (.vStr s)
    | _ => .error ["Not a valid string."]
  | .tInteger =>
    match v with
    | .vInt n => .ok (.vInt n)
    | .vStr s =>
      match parseIntString s with
      | some n => .ok (.vInt n)
      | none => .error ["Not a valid integer."]
    | _ => .error ["Not a valid integer."]
  | .tEmail =>
    match v with
    | .vStr s =>
      if emailValid s then .ok (.vStr s) else .error ["Not a valid email address."]
    | _ => .error ["Not a valid email address."]
  | .tURL =>
    match v with
    | .vStr s =>
      if urlValid s then .ok (.vStr s) else .error ["Not a valid URL."]
    | _ => .error ["Not a valid URL."]

/-- Modelled from the spec: the `partial` load option (spec §4.1): either
every field is exempted from the required check (`partial=True`), or only
the named fields are (`partial=("name",)` in `lib/partial.py`; the default
is the empty name set). -/
inductive Exempt where
  | allFields
  | only (names : List String)
deriving Repr, DecidableEq

/-- Does the `partial` option exempt field `k` from the required check? -/
def Exempt.exempts : Exempt → String → Bool
  | .allFields, _ => true
  | .only ns, k => ns.contains k

/-- The default load options: no field exempted. -/
def noExempt : Exempt := .only []

/-- Modelled from the spec: the single-record validation pass (spec §4.1):
every declared field is processed in order — a present value is coerced and
either added to the output or its messages recorded, an absent field is
either reported as missing (required and not exempted) or simply omitted.
Every field is processed regardless of earlier outcomes: there is no
short-circuit. Returns (output record, error report). -/
def processFields (ex : Exempt) (r : Record) : Schema → Record × List (String × List String)
  | [] => ([], [])
  | f :: fs =>
    let rest := processFields ex r fs
    match lookupField r f.name with
    | some v =>
      match coerceValue f.type_kind v with
      | .ok w => ((f.name, w) :: rest.1, rest.2)
      | .error msgs => (rest.1, (f.name, msgs) :: rest.2)
    | none =>
      if f.required && !(ex.exempts f.name) then
        (rest.1, (f.name, ["Missing data for required field."]) :: rest.2)
      else rest

/-- The coerced output of a full single-record pass. -/
def recordOutput (s : Schema) (ex : Exempt) (r : Record) : Record :=
  (processFields ex r s).1

/-- The aggregated error report of a full single-record pass: field name to
its ordered sequence of messages. -/
def recordErrors (s : Schema) (ex : Exempt) (r : Record) : List (String × List String) :=
  (processFields ex r s).2

/-- Modelled from the spec: single-record load (spec §4.1): run the full
pass, then fail with the aggregated report if it is non-empty, else return
the fully coerced output. -/
def loadSingle (s : Schema) (ex : Exempt) (r : Record) :
    Except (List (String × List String)) Record :=
  let p := processFields ex r s
  if p.2.isEmpty then .ok p.1 else .error p.2

/-- Modelled from the spec: the batch pass (`many=True`), carrying the
zero-based index of the current record: every record gets a full
single-record pass, and the per-record reports of offending records are
keyed by their index (spec §3 Error Report). -/
def processBatch (s : Schema) (ex : Exempt) :
    Nat → List Record → List Record × List (Nat × List (String × List String))
  | _, [] => ([], [])
  | i, r :: rs =>
    let errs := recordErrors s ex r
    let rest := processBatch s ex (i + 1) rs
    (recordOutput s ex r :: rest.1,
     if errs.isEmpty then rest.2 else (i, errs) :: rest.2)

/-- The aggregated batch Error Report: index of each offending record to its
field-level report. -/
def batchReport (s : Schema) (ex : Exempt) (rs : List Record) :
    List (Nat × List (String × List String)) :=
  (processBatch s ex 0 rs).2

/-- Modelled from the spec: batch load (`many=True`, spec §4.1): validate
every record, then fail with the aggregated indexed report if it is
non-empty, else return the ordered sequence of coerced records. -/
def loadMany (s : Schema) (ex : Exempt) (rs : List Record) :
    Except (List (Nat × List (String × List String))) (List Record) :=
  let p := processBatch s ex 0 rs
  if p.2.isEmpty then .ok p.1 else .error p.2

/-- The independent per-field outcome on the error side: what a single field
contributes to the report, computed without reference to any other field. -/
def fieldError (ex : Exempt) (r : Record) (f : FieldSpec) :
    Option (String × List String) :=
  match lookupField r f.name with
  | some v =>
    match coerceValue f.type_kind v with
    | .ok _ => none
    | .error msgs => some (f.name, msgs)
  | none =>
    if f.required && !(ex.exempts f.name) then
      some (f.name, ["Missing data for required field."])
    else none

/-- The independent per-field outcome on the output side (the `partial`
option affects only the required check, never the output, so it is unused
here). -/
def fieldOutput (_ex : Exempt) (r : Record) (f : FieldSpec) :
    Option (String × Value) :=
  match lookupField r f.name with
  | some v =>
    match coerceValue f.type_kind v with
    | .ok w => some (f.name, w)
    | .error _ => none
  | none => none

/-- A value is well-typed for a kind when coercion accepts it unchanged. -/
def wellTyped (tk : TypeKind) (v : Value) : Bool :=
  match coerceValue tk v with
  | .ok w => w == v
  | .error _ => false

/-! ### The schemas and data sets of the example scripts -/

/-- `VetSchema` of `lib/builtin.py`: six optional fields. -/
def vetSchema : Schema :=
  [⟨"name", .tString, false⟩, ⟨"email", .tEmail, false⟩,
   ⟨"website", .tURL, false⟩, ⟨"specialty", .tString, false⟩,
   ⟨"years_practice", .tInteger, false⟩, ⟨"diploma", .tString, false⟩]

/-- `vet_data` of `lib/builtin.py`. -/
def vetData : List Record :=
  [[("name", .vStr "Dr. Wags"), ("email", .vStr "email.com")],
   [("name", .vStr "Dr. Wags"), ("email", .vStr "wags@email.com"),
    ("website", .vStr "htp:company.com")],
   [("name", .vStr "Dr. Wags"), ("email", .vStr "wags@email.com"),
    ("specialty", .vStr "")],
   [("name", .vStr "Dr. Wags"), ("email", .vStr "wags@email.com"),
    ("years_practice", .vInt (-5))],
   [("name", .vStr "Dr. Wags"), ("email", .vStr "wags@email.com"),
    ("diploma", .vStr "none")],
   [("name", .vStr "Mr. Wags"), ("email", .vStr "wags@email.com")]]

/-- `UserSchema` of `lib/type.py`: name (String), age (Integer), email
(Email), all optional. -/
def typeUserSchema : Schema :=
  [⟨"name", .tString, false⟩, ⟨"age", .tInteger, false⟩,
   ⟨"email", .tEmail, false⟩]

/-- `user_data` of `lib/type.py`. -/
def typeUserData : List Record :=
  [[("name", .vStr "Ariel"), ("age", .vInt 30), ("email", .vStr "ariel@example.com")],
   [("name", .vBool true), ("age", .vInt 42), ("email", .vStr "someone@example..com")],
   [("name", .vStr "Sasha"), ("age", .vStr "young"), ("email", .vStr "ariel@example.com")],
   [("name", .vStr "Cruz"), ("age", .vInt 88), ("email", .vStr "cruz@example..com")]]

/-- `HamsterSchema` of `lib/required.py`: name required, breed optional. -/
def hamsterSchema : Schema :=
  [⟨"name", .tString, true⟩, ⟨"breed", .tString, false⟩]

/-- `hamster_data` of `lib/required.py`. -/
def hamsterData : List Record :=
  [[("name", .vStr "Hammy"), ("breed", .vStr "Syrian")],
   [("name", .vStr "Wiggles")],
   [("breed", .vStr "Winter White")],
   []]

/-- `UserSchema` of `lib/partial.py`: name and age both required. -/
def pUserSchema : Schema :=
  [⟨"name", .tString, true⟩, ⟨"age", .tInteger, true⟩]

/-- The three-field contact schema of the spec's end-to-end scenario (§8):
name (String), email (Email), website (URL), all optional. -/
def contactSchema : Schema :=
  [⟨"name", .tString, false⟩, ⟨"email", .tEmail, false⟩,
   ⟨"website", .tURL, false⟩]

/-- The batch input of the spec's end-to-end scenario (§8). -/
def contactData : List Record :=
  [[("email", .vStr "email.com")],
   [("email", .vStr "wags@email.com"), ("website", .vStr "htp:company.com")]]

/-! ### Statements of the validators as the specification phrases them -/

/-- Join a list of chunks with the separator `c` between consecutive chunks
(the inverse of `splitOnChar`). -/
def joinSep (c : Char) : List (List Char) → List Char
  | [] => []
  | [l] => l
  | l :: ls => l ++ c :: joinSep c ls

/-- The Email acceptance rule in the specification's phrasing: the text
contains exactly one "@" (it decomposes as local part, "@", domain, with no
further "@" in either part), the local part is non-empty, and the domain is
the dot-separated join of at least two labels, each non-empty and dot-free
— so the domain has at least one ".", every "." has non-empty labels on
both sides, and consecutive dots, a dot right after the "@" or a trailing
dot are all excluded. -/
def EmailSpec (s : String) : Prop :=
  ∃ loc dom labels,
    s.data = loc ++ '@' :: dom ∧ '@' ∉ loc ∧ '@' ∉ dom ∧
    loc ≠ [] ∧ 2 ≤ labels.length ∧ (∀ l ∈ labels, l ≠ [] ∧ '.' ∉ l) ∧
    dom = joinSep '.' labels

/-- The URL acceptance rule in the specification's phrasing: the text
begins with a recognized scheme ("http" or "https") followed by "://". -/
def UrlSpec (s : String) : Prop :=
  ∃ rest, s.data = "http://".data ++ rest ∨ s.data = "https://".data ++ rest

/-- The Integer acceptance rule in the specification's phrasing: the value
is an integer, or a string of decimal digits optionally preceded by a minus
sign (a string representing an integer, negatives included). -/
def IntSpec (v : Value) : Prop :=
  (∃ n, v = .vInt n) ∨
  (∃ s ds, v = .vStr s ∧ ds ≠ [] ∧ (∀ c ∈ ds, c.isDigit = true) ∧
    (s.data = ds ∨ s.data = '-' :: ds))

/-! ### Helper lemmas about the single-record pass -/

/-- The error side of the full pass is exactly the independent per-field
error of every declared field, in schema order. -/
theorem processFields_errors_eq (ex : Exempt) (r : Record) (s : Schema) :
    (processFields ex r s).2 = List.filterMap (fieldError ex r) s := by
  induction s with
  | nil => rfl
  | cons f fs ih =>
    rcases hl : lookupField r f.name with _ | v
    · by_cases hb : (f.required && !(ex.exempts f.name)) = true
      · simp [processFields, List.filterMap_cons, fieldError, hl, hb, ih]
      · simp [processFields, List.filterMap_cons, fieldError, hl, hb, ih]
    · rcases hc : coerceValue f.type_kind v with msgs | w
      · simp [processFields, List.filterMap_cons, fieldError, hl, hc, ih]
      · simp [processFields, List.filterMap_cons, fieldError, hl, hc, ih]

/-- The output side of the full pass is exactly the independent per-field
output of every declared field, in schema order. -/
theorem processFields_output_eq (ex : Exempt) (r : Record) (s : Schema) :
    (processFields ex r s).1 = List.filterMap (fieldOutput ex r) s := by
  induction s with
  | nil => rfl
  | cons f fs ih =>
    rcases hl : lookupField r f.name with _ | v
    · by_cases hb : (f.required && !(ex.exempts f.name)) = true
      · simp [processFields, List.filterMap_cons, fieldOutput, hl, hb, ih]
      · simp [processFields, List.filterMap_cons, fieldOutput, hl, hb, ih]
    · rcases hc : coerceValue f.type_kind v with msgs | w
      · simp [processFields, List.filterMap_cons, fieldOutput, hl, hc, ih]
      · simp [processFields, List.filterMap_cons, fieldOutput, hl, hc, ih]

/-- A successful lookup returns an entry of the record. -/
theorem lookupField_mem {r : Record} {k : String} {v : Value}
    (h : lookupField r k = some v) : (k, v) ∈ r := by
  induction r with
  | nil => simp [lookupField] at h
  | cons p rest ih =>
    obtain ⟨k2, w⟩ := p
    by_cases hk : k2 = k
    · subst hk
      simp [lookupField] at h
      simp [h]
    · simp [lookupField, hk] at h
      exact List.mem_cons_of_mem _ (ih h)

/-- Every reported field error is tagged with the field's own name. -/
theorem fieldError_name {ex : Exempt} {r : Record} {f : FieldSpec}
    {q : String × List String} (h : fieldError ex r f = some q) :
    q.1 = f.name := by
  rcases hl : lookupField r f.name with _ | v
  · by_cases hb : (f.required && !(ex.exempts f.name)) = true
    · simp [fieldError, hl, hb] at h
      simp [← h]
    · simp [fieldError, hl, hb] at h
  · rcases hc : coerceValue f.type_kind v with msgs | w
    · simp [fieldError, hl, hc] at h
      simp [← h]
    · simp [fieldError, hl, hc] at h

/-- Every output entry is tagged with the field's own name. -/
theorem fieldOutput_name {ex : Exempt} {r : Record} {f : FieldSpec}
    {p : String × Value} (h : fieldOutput ex r f = some p) :
    p.1 = f.name := by
  rcases hl : lookupField r f.name with _ | v
  · simp [fieldOutput, hl] at h
  · rcases hc : coerceValue f.type_kind v with msgs | w
    · simp [fieldOutput, hl, hc] at h
    · simp [fieldOutput, hl, hc] at h
      simp [← h]

/-- The batch pass validates every record: its output side is the full
single-record pass of each input record, in input order. -/
theorem processBatch_fst (s : Schema) (ex : Exempt) (i : Nat) (rs : List Record) :
    (processBatch s ex i rs).1 = rs.map (recordOutput s ex) := by
  induction rs generalizing i with
  | nil => rfl
  | cons r rest ih => simp [processBatch, ih]

/-- Membership in the report side of the batch pass started at index `i`:
exactly the offending records appear, keyed by `i` plus their position, and
each carries its complete single-record report. -/
theorem mem_processBatch_snd (s : Schema) (ex : Exempt) (rs : List Record)
    (i k : Nat) (e : List (String × List String)) :
    (k, e) ∈ (processBatch s ex i rs).2 ↔
      ∃ j r, rs[j]? = some r ∧ k = i + j ∧
        recordErrors s ex r ≠ [] ∧ e = recordErrors s ex r := by
  induction rs generalizing i with
  | nil => simp [processBatch]
  | cons r rest ih =>
    by_cases he : (recordErrors s ex r).isEmpty = true
    · rw [List.isEmpty_iff] at he
      simp only [processBatch, recordErrors] at *
      rw [he]
      simp only [List.isEmpty_nil, if_pos]
      rw [ih (i + 1)]
      constructor
      · rintro ⟨j, r2, hj, hk, hne, hee⟩
        exact ⟨j + 1, r2, by simpa using hj, by omega, hne, hee⟩
      · rintro ⟨j, r2, hj, hk, hne, hee⟩
        match j with
        | 0 =>
          simp at hj
          subst hj
          exact absurd he hne
        | j2 + 1 =>
          exact ⟨j2, r2, by simpa using hj, by omega, hne, hee⟩
    · rw [Bool.not_eq_true, List.isEmpty_eq_false] at he
      simp only [processBatch, recordErrors] at *
      rw [if_neg (by simpa [List.isEmpty_iff] using he)]
      simp only [List.mem_cons, Prod.mk.injEq]
      rw [ih (i + 1)]
      constructor
      · rintro (⟨hk, hee⟩ | ⟨j, r2, hj, hk, hne, hee⟩)
        · exact ⟨0, r, by simp, by omega, he, hee⟩
        · exact ⟨j + 1, r2, by simpa using hj, by omega, hne, hee⟩
      · rintro ⟨j, r2, hj, hk, hne, hee⟩
        match j with
        | 0 =>
          simp at hj
          subst hj
          exact Or.inl ⟨by omega, hee⟩
        | j2 + 1 =>
          exact Or.inr ⟨j2, r2, by simpa using hj, by omega, hne, hee⟩

/-- `loadMany` fails exactly when the aggregated batch report is non-empty,
and then carries that report unchanged. -/
theorem loadMany_error_iff (s : Schema) (ex : Exempt) (rs : List Record)
    (rep : List (Nat × List (String × List String))) :
    loadMany s ex rs = .error rep ↔ rep = batchReport s ex rs ∧ rep ≠ [] := by
  unfold loadMany batchReport
  by_cases he : (processBatch s ex 0 rs).2.isEmpty = true
  · rw [List.isEmpty_iff] at he
    simp [he]
  · rw [Bool.not_eq_true, List.isEmpty_eq_false] at he
    rw [if_neg (by simpa [List.isEmpty_iff] using he)]
    constructor
    · rintro h
      cases h
      exact ⟨rfl, he⟩
    · rintro ⟨h, _⟩
      rw [h]

/-- `loadMany` succeeds exactly when the aggregated batch report is empty,
and then returns the coerced records in input order. -/
theorem loadMany_ok_iff (s : Schema) (ex : Exempt) (rs : List Record)
    (outs : List Record) :
    loadMany s ex rs = .ok outs ↔
      batchReport s ex rs = [] ∧ outs = rs.map (recordOutput s ex) := by
  unfold loadMany batchReport
  by_cases he : (processBatch s ex 0 rs).2.isEmpty = true
  · rw [List.isEmpty_iff] at he
    simp [he, processBatch_fst]
    constructor
    · rintro h; exact h.symm
    · rintro h; exact h.symm
  · rw [Bool.not_eq_true, List.isEmpty_eq_false] at he
    rw [if_neg (by simpa [List.isEmpty_iff] using he)]
    simp [he]

/-- `loadSingle` fails exactly when the single-record report is non-empty,
and then carries that report unchanged. -/
theorem loadSingle_error_iff (s : Schema) (ex : Exempt) (r : Record)
    (rep : List (String × List String)) :
    loadSingle s ex r = .error rep ↔ rep = recordErrors s ex r ∧ rep ≠ [] := by
  unfold loadSingle recordErrors
  by_cases he : (processFields ex r s).2.isEmpty = true
  · rw [List.isEmpty_iff] at he
    simp [he]
  · rw [Bool.not_eq_true, List.isEmpty_eq_false] at he
    rw [if_neg (by simpa [List.isEmpty_iff] using he)]
    constructor
    · rintro h
      cases h
      exact ⟨rfl, he⟩
    · rintro ⟨h, _⟩
      rw [h]

/-- `loadSingle` succeeds exactly when the single-record report is empty,
and then returns the coerced output. -/
theorem loadSingle_ok_iff (s : Schema) (ex : Exempt) (r : Record)
    (out : Record) :
    loadSingle s ex r = .ok out ↔
      recordErrors s ex r = [] ∧ out = recordOutput s ex r := by
  unfold loadSingle recordErrors recordOutput
  by_cases he : (processFields ex r s).2.isEmpty = true
  · rw [List.isEmpty_iff] at he
    simp [he]
    constructor
    · rintro h; exact h.symm
    · rintro h; exact h.symm
  · rw [Bool.not_eq_true, List.isEmpty_eq_false] at he
    rw [if_neg (by simpa [List.isEmpty_iff] using he)]
    simp [he]

/-! ### Lemmas about `splitOnChar` and `joinSep` -/

/-- Splitting always yields at least one chunk. -/
theorem splitOnChar_ne_nil (c : Char) (cs : List Char) :
    splitOnChar c cs ≠ [] := by
  induction cs with
  | nil => simp [splitOnChar]
  | cons x xs ih =>
    rcases hs : splitOnChar c xs with _ | ⟨h, t⟩
    · exact absurd hs ih
    · by_cases hx : x = c
      · simp [splitOnChar, hs, hx]
      · simp [splitOnChar, hs, hx]

/-- `joinSep` of a chunk list whose tail is non-empty inserts a separator
after the first chunk. -/
theorem joinSep_cons_of_ne_nil (c : Char) (l : List Char)
    (ls : List (List Char)) (h : ls ≠ []) :
    joinSep c (l :: ls) = l ++ c :: joinSep c ls := by
  cases ls with
  | nil => exact absurd rfl h
  | cons a as => rfl

/-- Joining the chunks of a split with the separator recovers the input. -/
theorem joinSep_splitOnChar (c : Char) (cs : List Char) :
    joinSep c (splitOnChar c cs) = cs := by
  induction cs with
  | nil => rfl
  | cons x xs ih =>
    rcases hs : splitOnChar c xs with _ | ⟨h, t⟩
    · exact absurd hs (splitOnChar_ne_nil c xs)
    · rw [hs] at ih
      by_cases hx : x = c
      · subst hx
        have hg : splitOnChar x (x :: xs) = [] :: h :: t := by
          simp [splitOnChar, hs]
        rw [hg, joinSep_cons_of_ne_nil _ _ _ (by simp), ih]
        rfl
      · have hg : splitOnChar c (x :: xs) = (x :: h) :: t := by
          simp [splitOnChar, hs, hx]
        rw [hg]
        cases t with
        | nil =>
          simp only [joinSep] at ih ⊢
          rw [ih]
        | cons a as =>
          rw [joinSep_cons_of_ne_nil _ _ _ (by simp)] at ih
          rw [joinSep_cons_of_ne_nil _ _ _ (by simp), ← ih]
          simp

/-- No chunk of a split contains the separator. -/
theorem not_mem_splitOnChar (c : Char) (cs : List Char) :
    ∀ l ∈ splitOnChar c cs, c ∉ l := by
  induction cs with
  | nil => simp [splitOnChar]
  | cons x xs ih =>
    rcases hs : splitOnChar c xs with _ | ⟨h, t⟩
    · exact absurd hs (splitOnChar_ne_nil c xs)
    · rw [hs] at ih
      by_cases hx : x = c
      · subst hx
        have hg : splitOnChar x (x :: xs) = [] :: h :: t := by
          simp [splitOnChar, hs]
        rw [hg]
        intro l hl
        rcases List.mem_cons.mp hl with h1 | h2
        · simp [h1]
        · exact ih l h2
      · have hg : splitOnChar c (x :: xs) = (x :: h) :: t := by
          simp [splitOnChar, hs, hx]
        rw [hg]
        intro l hl
        rcases List.mem_cons.mp hl with h1 | h2
        · subst h1
          intro hmem
          rcases List.mem_cons.mp hmem with h3 | h4
          · exact hx h3.symm
          · exact ih h (by simp) h4
        · exact ih l (List.mem_cons_of_mem _ h2)

/-- Splitting a separator-free list yields a single chunk. -/
theorem splitOnChar_of_not_mem (c : Char) (cs : List Char) (h : c ∉ cs) :
    splitOnChar c cs = [cs] := by
  induction cs with
  | nil => rfl
  | cons x xs ih =>
    have hx : ¬(x = c) := fun he => h (by simp [he])
    have hxs : c ∉ xs := fun hm => h (List.mem_cons_of_mem _ hm)
    simp [splitOnChar, ih hxs, hx]

/-- Splitting around an explicit first separator occurrence peels off the
separator-free prefix as the first chunk. -/
theorem splitOnChar_append (c : Char) (a b : List Char) (h : c ∉ a) :
    splitOnChar c (a ++ c :: b) = a :: splitOnChar c b := by
  induction a with
  | nil =>
    rcases hs : splitOnChar c b with _ | ⟨hh, t⟩
    · exact absurd hs (splitOnChar_ne_nil c b)
    · simp [splitOnChar, hs]
  | cons x a2 ih =>
    have hx : ¬(x = c) := fun he => h (by simp [he])
    have ha : c ∉ a2 := fun hm => h (List.mem_cons_of_mem _ hm)
    rcases hs : splitOnChar c (a2 ++ c :: b) with _ | ⟨hh, t⟩
    · exact absurd hs (splitOnChar_ne_nil c _)
    · have := ih ha
      rw [hs] at this
      cases this
      simp [splitOnChar, hs, hx]

/-- Splitting the separator-join of separator-free non-empty chunk lists
recovers the chunks. -/
theorem splitOnChar_joinSep (c : Char) (ls : List (List Char))
    (h1 : ls ≠ []) (h2 : ∀ l ∈ ls, c ∉ l) :
    splitOnChar c (joinSep c ls) = ls := by
  induction ls with
  | nil => exact absurd rfl h1
  | cons l ls2 ih =>
    cases ls2 with
    | nil => exact splitOnChar_of_not_mem c l (h2 l (by simp))
    | cons a as =>
      rw [joinSep_cons_of_ne_nil _ _ _ (by simp),
          splitOnChar_append c l _ (h2 l (by simp)),
          ih (by simp) (fun l2 hl2 => h2 l2 (List.mem_cons_of_mem _ hl2))]

/-! ### Characterizations of the validators -/

/-- The executable email check accepts exactly the strings described by the
specification's rule. -/
theorem emailValid_iff (s : String) : emailValid s = true ↔ EmailSpec s := by
  constructor
  · intro h
    unfold emailValid at h
    rcases hsp : splitOnChar '@' s.data with _ | ⟨loc, _ | ⟨dom, _ | ⟨x, rest⟩⟩⟩
    · exact absurd hsp (splitOnChar_ne_nil _ _)
    · rw [hsp] at h
      simp at h
    · rw [hsp] at h
      simp only [Bool.and_eq_true, Bool.not_eq_true', List.isEmpty_eq_false,
        decide_eq_true_eq, List.all_eq_true] at h
      obtain ⟨⟨hloc, hlen⟩, hall⟩ := h
      have hjoin := joinSep_splitOnChar '@' s.data
      rw [hsp, joinSep_cons_of_ne_nil _ _ _ (by simp)] at hjoin
      refine ⟨loc, dom, splitOnChar '.' dom, hjoin.symm, ?_, ?_, hloc, hlen,
        ?_, (joinSep_splitOnChar '.' dom).symm⟩
      · exact not_mem_splitOnChar '@' s.data loc (by rw [hsp]; simp)
      · exact not_mem_splitOnChar '@' s.data dom (by rw [hsp]; simp)
      · intro l hl
        refine ⟨?_, not_mem_splitOnChar '.' dom l hl⟩
        have := hall l hl
        simpa using this
    · rw [hsp] at h
      simp at h
  · rintro ⟨loc, dom, labels, hdec, hnl, hnd, hloc, hlen, hlbl, hdom⟩
    have hlabels : splitOnChar '.' dom = labels := by
      rw [hdom]
      refine splitOnChar_joinSep '.' labels ?_ (fun l hl => (hlbl l hl).2)
      intro h0
      rw [h0] at hlen
      simp at hlen
    unfold emailValid
    rw [hdec, splitOnChar_append '@' loc dom hnl, splitOnChar_of_not_mem '@' dom hnd]
    simp only [hlabels, Bool.and_eq_true, Bool.not_eq_true', List.isEmpty_eq_false,
      decide_eq_true_eq, List.all_eq_true]
    refine ⟨⟨hloc, hlen⟩, ?_⟩
    intro l hl
    simpa using (hlbl l hl).1

/-- The executable URL check accepts exactly the strings described by the
specification's rule. -/
theorem urlValid_iff (s : String) : urlValid s = true ↔ UrlSpec s := by
  unfold urlValid UrlSpec
  rw [Bool.or_eq_true, List.isPrefixOf_iff_prefix, List.isPrefixOf_iff_prefix]
  constructor
  · rintro (⟨t, ht⟩ | ⟨t, ht⟩)
    · exact ⟨t, Or.inl ht.symm⟩
    · exact ⟨t, Or.inr ht.symm⟩
  · rintro ⟨t, ht | ht⟩
    · exact Or.inl ⟨t, ht.symm⟩
    · exact Or.inr ⟨t, ht.symm⟩

/-- The executable integer-string parser succeeds exactly on the strings
described by the specification's rule. -/
theorem parseIntString_some_iff (s : String) :
    (∃ n, parseIntString s = some n) ↔
      ∃ ds, ds ≠ [] ∧ (∀ d ∈ ds, d.isDigit = true) ∧
        (s.data = ds ∨ s.data = '-' :: ds) := by
  rcases hd : s.data with _ | ⟨c, rest⟩
  · constructor
    · rintro ⟨n, hn⟩
      simp [parseIntString, hd] at hn
    · rintro ⟨ds, hne, _, h | h⟩
      · exact absurd h.symm hne
      · cases h
  · have hps : parseIntString s =
        if c = '-' then
          if !rest.isEmpty && rest.all (·.isDigit) then
            some (-((rest.foldl (fun a d => a * 10 + (d.toNat - 48)) 0 : Nat) : Int))
          else none
        else
          if (c :: rest).all (·.isDigit) then
            some (((c :: rest).foldl (fun a d => a * 10 + (d.toNat - 48)) 0 : Nat) : Int)
          else none := by
      unfold parseIntString
      rw [hd]
    by_cases hc : c = '-'
    · subst hc
      rw [if_pos rfl] at hps
      by_cases hr : (!rest.isEmpty && rest.all (·.isDigit)) = true
      · rw [if_pos hr] at hps
        simp only [Bool.and_eq_true, Bool.not_eq_true', List.isEmpty_eq_false,
          List.all_eq_true, decide_eq_true_eq] at hr
        constructor
        · intro _
          exact ⟨rest, hr.1, hr.2, Or.inr rfl⟩
        · intro _
          exact ⟨_, hps⟩
      · rw [if_neg hr] at hps
        constructor
        · rintro ⟨n, hn⟩
          rw [hps] at hn
          cases hn
        · rintro ⟨ds, hne, hdig, h | h⟩
          · exfalso
            have hmem : ('-' : Char) ∈ ds := by
              rw [← h]
              simp
            have := hdig '-' hmem
            have hfalse : ('-' : Char).isDigit = false := by decide
            rw [this] at hfalse
            cases hfalse
          · exfalso
            injection h with h1 h2
            subst h2
            apply hr
            simp only [Bool.and_eq_true, Bool.not_eq_true', List.isEmpty_eq_false,
              List.all_eq_true, decide_eq_true_eq]
            exact ⟨hne, hdig⟩
    · rw [if_neg hc] at hps
      by_cases hr : ((c :: rest).all (·.isDigit)) = true
      · rw [if_pos hr] at hps
        simp only [List.all_eq_true, decide_eq_true_eq] at hr
        constructor
        · intro _
          exact ⟨c :: rest, by simp, hr, Or.inl rfl⟩
        · intro _
          exact ⟨_, hps⟩
      · rw [if_neg hr] at hps
        constructor
        · rintro ⟨n, hn⟩
          rw [hps] at hn
          cases hn
        · rintro ⟨ds, hne, hdig, h | h⟩
          · exfalso
            apply hr
            simp only [List.all_eq_true, decide_eq_true_eq]
            rw [h]
            exact hdig
          · injection h with h1 h2
            exact absurd h1 hc

/-! ### Lookup behaviour of the coerced output -/

/-- Unfolding lemma for `lookupField` on a non-empty record. -/
theorem lookupField_cons (k2 : String) (v : Value) (r : Record) (k : String) :
    lookupField ((k2, v) :: r) k = if k2 = k then some v else lookupField r k := rfl

/-- A key absent from the input record is absent from the coerced output. -/
theorem lookup_out_none_of_lookup_none (ex : Exempt) (r : Record) (k : String)
    (hl : lookupField r k = none) :
    ∀ s : Schema, lookupField (List.filterMap (fieldOutput ex r) s) k = none := by
  intro s
  induction s with
  | nil => rfl
  | cons f fs ih =>
    rcases ho : fieldOutput ex r f with _ | p
    · simpa [List.filterMap_cons, ho] using ih
    · obtain ⟨pk, pv⟩ := p
      have hpk : pk = f.name := by simpa using fieldOutput_name ho
      have hfk : f.name ≠ k := by
        intro he
        rcases hl2 : lookupField r f.name with _ | w
        · simp [fieldOutput, hl2] at ho
        · rw [he, hl] at hl2
          cases hl2
      simp only [List.filterMap_cons, ho, lookupField_cons]
      rw [if_neg (by rw [hpk]; exact hfk)]
      exact ih

/-- A key not declared by any schema field is absent from the coerced
output. -/
theorem lookup_out_none_of_undeclared (ex : Exempt) (r : Record) (k : String) :
    ∀ s : Schema, (∀ f ∈ s, f.name ≠ k) →
      lookupField (List.filterMap (fieldOutput ex r) s) k = none := by
  intro s
  induction s with
  | nil => intro _; rfl
  | cons f fs ih =>
    intro hnd
    rcases ho : fieldOutput ex r f with _ | p
    · simpa [List.filterMap_cons, ho] using
        ih (fun g hg => hnd g (List.mem_cons_of_mem _ hg))
    · obtain ⟨pk, pv⟩ := p
      have hpk : pk = f.name := by simpa using fieldOutput_name ho
      simp only [List.filterMap_cons, ho, lookupField_cons]
      rw [if_neg (by rw [hpk]; exact hnd f (List.mem_cons_self _ _))]
      exact ih (fun g hg => hnd g (List.mem_cons_of_mem _ hg))

/-- A declared key whose input value is well-typed looks up in the coerced
output to exactly its input value. -/
theorem lookup_out_some_of_wellTyped (ex : Exempt) (r : Record) (k : String)
    (v : Value) (hl : lookupField r k = some v) :
    ∀ s : Schema,
      (∀ p ∈ r, ∀ f ∈ s, f.name = p.1 → wellTyped f.type_kind p.2 = true) →
      (∃ f ∈ s, f.name = k) →
      lookupField (List.filterMap (fieldOutput ex r) s) k = some v := by
  intro s
  induction s with
  | nil =>
    rintro _ ⟨f, hf, _⟩
    exact absurd hf (List.not_mem_nil f)
  | cons f fs ih =>
    rintro hwt ⟨f2, hf2, hk⟩
    have hwt2 : ∀ p ∈ r, ∀ g ∈ fs, g.name = p.1 → wellTyped g.type_kind p.2 = true :=
      fun p hp g hg he => hwt p hp g (List.mem_cons_of_mem _ hg) he
    by_cases hfk : f.name = k
    · have hlf : lookupField r f.name = some v := by rw [hfk]; exact hl
      have hwtv := hwt (k, v) (lookupField_mem hl) f (List.mem_cons_self _ _) hfk
      have hco : coerceValue f.type_kind v = .ok v := by
        rcases hc : coerceValue f.type_kind v with msgs | w
        · simp [wellTyped, hc] at hwtv
        · simp only [wellTyped, hc, beq_iff_eq] at hwtv
          rw [hwtv]
      have ho : fieldOutput ex r f = some (f.name, v) := by
        simp [fieldOutput, hlf, hco]
      simp only [List.filterMap_cons, ho, lookupField_cons]
      rw [if_pos hfk]
    · have hf2fs : f2 ∈ fs := by
        rcases List.mem_cons.mp hf2 with he | h2
        · exact absurd (he ▸ hk) hfk
        · exact h2
      rcases ho : fieldOutput ex r f with _ | p
      · simp only [List.filterMap_cons, ho]
        exact ih hwt2 ⟨f2, hf2fs, hk⟩
      · obtain ⟨pk, pv⟩ := p
        have hpk : pk = f.name := by simpa using fieldOutput_name ho
        simp only [List.filterMap_cons, ho, lookupField_cons]
        rw [if_neg (by rw [hpk]; exact hfk)]
        exact ih hwt2 ⟨f2, hf2fs, hk⟩

/-- On a record whose entries are all well-typed for the fields they match
and which satisfies every non-exempted required field, the pass reports no
error at all. -/
theorem recordErrors_eq_nil_of_valid (s : Schema) (ex : Exempt) (r : Record)
    (hwt : ∀ p ∈ r, ∀ f ∈ s, f.name = p.1 → wellTyped f.type_kind p.2 = true)
    (hreq : ∀ f ∈ s, f.required = true →
      ex.exempts f.name = true ∨ (lookupField r f.name).isSome = true) :
    recordErrors s ex r = [] := by
  rw [recordErrors, processFields_errors_eq, List.filterMap_eq_nil_iff]
  intro f hf
  rcases hl : lookupField r f.name with _ | v
  · rcases hb : f.required with _ | _
    · simp [fieldError, hl, hb]
    · rcases hreq f hf hb with hex | hsome
      · simp [fieldError, hl, hex]
      · rw [hl] at hsome
        cases hsome
  · have hwtv := hwt (f.name, v) (lookupField_mem hl) f hf rfl
    rcases hc : coerceValue f.type_kind v with msgs | w
    · simp [wellTyped, hc] at hwtv
    · simp [fieldError, hl, hc]

/-- Prepending an entry whose key no schema field declares does not change
the result of the validation pass at all. -/
theorem processFields_ignores_unknown (ex : Exempt) (r : Record) (k : String)
    (v : Value) :
    ∀ s : Schema, (∀ f ∈ s, f.name ≠ k) →
      processFields ex ((k, v) :: r) s = processFields ex r s := by
  intro s
  induction s with
  | nil => intro _; rfl
  | cons f fs ih =>
    intro h
    have hlk : lookupField ((k, v) :: r) f.name = lookupField r f.name := by
      rw [lookupField_cons]
      rw [if_neg (fun he => h f (List.mem_cons_self _ _) he.symm)]
    have ihr := ih (fun g hg => h g (List.mem_cons_of_mem _ hg))
    simp only [processFields, hlk, ihr]

/-- On an empty input record, a pass in which every required field is
exempted produces empty output and an empty report. -/
theorem processFields_nil_record_exempt (ex : Exempt) :
    ∀ s : Schema, (∀ g ∈ s, g.required = true → ex.exempts g.name = true) →
      processFields ex [] s = ([], []) := by
  intro s
  induction s with
  | nil => intro _; rfl
  | cons f fs ih =>
    intro h
    have ihr := ih (fun g hg => h g (List.mem_cons_of_mem _ hg))
    rcases hb : f.required with _ | _
    · simp [processFields, lookupField, hb, ihr]
    · have hex := h f (List.mem_cons_self _ _) hb
      simp [processFields, lookupField, hb, hex, ihr]

/-! ### The claims -/

/-- C1: the load operation evaluates every field of every record with no
short-circuit on the first error — the single-record report is the
independent per-field outcome of every declared field, and a failing batch
load fails with exactly the complete aggregated report (a non-empty one),
never returning any partial output (the result type is a sum, so an
`error` result carries nothing but the report).  The `lib/builtin.py` data
set is checked end to end: the batch fails with the two documented
per-record reports. -/
theorem claim_atomic_aggregated_load :
    (∀ (s : Schema) (ex : Exempt) (r : Record),
        recordErrors s ex r = List.filterMap (fieldError ex r) s) ∧
    (∀ (s : Schema) (ex : Exempt) (rs : List Record)
        (rep : List (Nat × List (String × List String))),
        loadMany s ex rs = .error rep → rep = batchReport s ex rs ∧ rep ≠ []) ∧
    (∀ (s : Schema) (ex : Exempt) (rs : List Record),
        batchReport s ex rs ≠ [] →
          loadMany s ex rs = .error (batchReport s ex rs)) ∧
    loadMany vetSchema noExempt vetData =
      .error [(0, [("email", ["Not a valid email address."])]),
              (1, [("website", ["Not a valid URL."])])] := by
  refine ⟨?_, ?_, ?_, rfl⟩
  · intro s ex r
    exact processFields_errors_eq ex r s
  · intro s ex rs rep h
    exact (loadMany_error_iff s ex rs rep).mp h
  · intro s ex rs h
    exact (loadMany_error_iff s ex rs _).mpr ⟨rfl, h⟩

theorem claim_atomic_aggregated_load_witness :
    ([((0 : Nat), [("email", ["Not a valid email address."])]),
      (1, [("website", ["Not a valid URL."])])] =
        batchReport vetSchema noExempt vetData) ∧
    ([((0 : Nat), [("email", ["Not a valid email address."])]),
      (1, [("website", ["Not a valid URL."])])] ≠ []) :=
  claim_atomic_aggregated_load.2.1 vetSchema noExempt vetData _ rfl

/-- C2: the batch Error Report maps the zero-based index of each offending
record to its field-to-messages report, and exactly the offending records
appear as keys; the spec's end-to-end scenario (three optional fields name,
email, website; two invalid records) fails with exactly the documented
two-entry report. -/
theorem claim_batch_report_indexing :
    (∀ (s : Schema) (ex : Exempt) (rs : List Record) (i : Nat)
        (e : List (String × List String)),
        (i, e) ∈ batchReport s ex rs ↔
          ∃ r, rs[i]? = some r ∧ recordErrors s ex r ≠ [] ∧
            e = recordErrors s ex r) ∧
    loadMany contactSchema noExempt contactData =
      .error [(0, [("email", ["Not a valid email address."])]),
              (1, [("website", ["Not a valid URL."])])] := by
  refine ⟨?_, rfl⟩
  intro s ex rs i e
  unfold batchReport
  rw [mem_processBatch_snd]
  constructor
  · rintro ⟨j, r, hj, hk, hne, he⟩
    have hji : j = i := by omega
    subst hji
    exact ⟨r, hj, hne, he⟩
  · rintro ⟨r, hi, hne, he⟩
    exact ⟨i, r, hi, by omega, hne, he⟩

/-- C3 (counterexample): with the `lib/partial.py` schema — `name` and
`age` both required — loading the empty record with `partial={"name"}`
does NOT succeed: it fails on the other required field, contradicting the
claim that `load(S, {}, partial={F})` succeeds for every schema with a
required field F. -/
theorem claim_partial_cex :
    (FieldSpec.mk "name" .tString true) ∈ pUserSchema ∧
    loadSingle pUserSchema (Exempt.only ["name"]) [] =
      .error [("age", ["Missing data for required field."])] :=
  ⟨by decide, rfl⟩

/-- C3 (amended): for every schema `s` with a required field `f`, loading
the empty record fails with a report containing the missing-required
violation for `f`; under `partial={f}` no violation is recorded for `f`
(a set exempts only the named fields; the exemption holds for that call
only — the schema value is untouched), and when `f` is the only required
field the exempted load succeeds with `f` simply omitted (empty output);
`partial=True` exempts all fields, so under it the empty record always
loads successfully with every field omitted. -/
theorem claim_partial_required_semantics :
    ∀ (s : Schema) (f : FieldSpec), f ∈ s → f.required = true →
      ((f.name, ["Missing data for required field."]) ∈
          recordErrors s noExempt [] ∧
       loadSingle s noExempt [] = .error (recordErrors s noExempt []) ∧
       (∀ msgs, (f.name, msgs) ∉ recordErrors s (.only [f.name]) []) ∧
       ((∀ g ∈ s, g.required = true → g.name = f.name) →
         loadSingle s (.only [f.name]) [] = .ok []) ∧
       loadSingle s .allFields [] = .ok []) := by
  intro s f hf hreq
  have hmem : (f.name, ["Missing data for required field."]) ∈
      recordErrors s noExempt [] := by
    rw [recordErrors, processFields_errors_eq]
    refine List.mem_filterMap.mpr ⟨f, hf, ?_⟩
    simp [fieldError, lookupField, noExempt, Exempt.exempts, hreq]
  refine ⟨hmem, ?_, ?_, ?_, ?_⟩
  · exact (loadSingle_error_iff s noExempt [] _).mpr
      ⟨rfl, List.ne_nil_of_mem hmem⟩
  · intro msgs hmem2
    rw [recordErrors, processFields_errors_eq] at hmem2
    obtain ⟨g, hg, hge⟩ := List.mem_filterMap.mp hmem2
    have hname : f.name = g.name := fieldError_name hge
    have hcont : ([f.name].contains g.name) = true := by
      simp [← hname]
    simp [fieldError, lookupField, Exempt.exempts, hcont] at hge
    exact hge.1.2 hge.2.1
  · intro honly
    have hexall : ∀ g ∈ s, g.required = true →
        (Exempt.only [f.name]).exempts g.name = true := by
      intro g hg hgr
      simp [Exempt.exempts, honly g hg hgr]
    have hp := processFields_nil_record_exempt (.only [f.name]) s hexall
    rw [loadSingle, hp]
    rfl
  · have hp := processFields_nil_record_exempt .allFields s
      (fun g hg hgr => rfl)
    rw [loadSingle, hp]
    rfl

theorem claim_partial_required_semantics_witness :
    ("name", ["Missing data for required field."]) ∈
        recordErrors hamsterSchema noExempt [] ∧
    loadSingle hamsterSchema (Exempt.only ["name"]) [] = .ok [] ∧
    loadSingle pUserSchema Exempt.allFields [] = .ok [] :=
  ⟨(claim_partial_required_semantics hamsterSchema
      ⟨"name", .tString, true⟩ (by decide) rfl).1,
   (claim_partial_required_semantics hamsterSchema
      ⟨"name", .tString, true⟩ (by decide) rfl).2.2.2.1 (by decide),
   (claim_partial_required_semantics pUserSchema
      ⟨"name", .tString, true⟩ (by decide) rfl).2.2.2.2⟩

/-- C4: an Email-typed field accepts a value exactly when it is text with
exactly one "@", a non-empty local part and a domain that is a
dot-separated join of at least two non-empty dot-free labels (so at least
one ".", with non-empty labels on both sides, no consecutive dots and no
dot right after the "@"); "email.com" and "someone@example..com" fail with
the message "Not a valid email address." and "wags@email.com" passes. -/
theorem claim_email_validation :
    (∀ v : Value, (∃ w, coerceValue .tEmail v = .ok w) ↔
        ∃ s, v = .vStr s ∧ EmailSpec s) ∧
    coerceValue .tEmail (.vStr "email.com") =
      .error ["Not a valid email address."] ∧
    coerceValue .tEmail (.vStr "someone@example..com") =
      .error ["Not a valid email address."] ∧
    coerceValue .tEmail (.vStr "wags@email.com") =
      .ok (.vStr "wags@email.com") := by
  refine ⟨?_, rfl, rfl, rfl⟩
  intro v
  cases v with
  | vStr s =>
    simp only [coerceValue]
    by_cases he : emailValid s = true
    · rw [if_pos he]
      constructor
      · intro _
        exact ⟨s, rfl, (emailValid_iff s).mp he⟩
      · intro _
        exact ⟨.vStr s, rfl⟩
    · rw [if_neg he]
      constructor
      · rintro ⟨w, hw⟩
        cases hw
      · rintro ⟨s2, hs2, hspec⟩
        injection hs2 with h2
        subst h2
        exact absurd ((emailValid_iff s).mpr hspec) he
  | vInt n =>
    simp only [coerceValue]
    constructor
    · rintro ⟨w, hw⟩
      cases hw
    · rintro ⟨s2, hs2, _⟩
      cases hs2
  | vBool b =>
    simp only [coerceValue]
    constructor
    · rintro ⟨w, hw⟩
      cases hw
    · rintro ⟨s2, hs2, _⟩
      cases hs2

/-- C5: a URL-typed field accepts a value exactly when it is text beginning
with "http://" or "https://"; a scheme token without "://" is rejected with
the message "Not a valid URL." — in particular "htp:company.com" (and even
"http:company.com") fail and "https://company.com" passes. -/
theorem claim_url_validation :
    (∀ v : Value, (∃ w, coerceValue .tURL v = .ok w) ↔
        ∃ s, v = .vStr s ∧ UrlSpec s) ∧
    coerceValue .tURL (.vStr "htp:company.com") = .error ["Not a valid URL."] ∧
    coerceValue .tURL (.vStr "http:company.com") = .error ["Not a valid URL."] ∧
    coerceValue .tURL (.vStr "https://company.com") =
      .ok (.vStr "https://company.com") := by
  refine ⟨?_, rfl, rfl, rfl⟩
  intro v
  cases v with
  | vStr s =>
    simp only [coerceValue]
    by_cases hu : urlValid s = true
    · rw [if_pos hu]
      constructor
      · intro _
        exact ⟨s, rfl, (urlValid_iff s).mp hu⟩
      · intro _
        exact ⟨.vStr s, rfl⟩
    · rw [if_neg hu]
      constructor
      · rintro ⟨w, hw⟩
        cases hw
      · rintro ⟨s2, hs2, hspec⟩
        injection hs2 with h2
        subst h2
        exact absurd ((urlValid_iff s).mpr hspec) hu
  | vInt n =>
    simp only [coerceValue]
    constructor
    · rintro ⟨w, hw⟩
      cases hw
    · rintro ⟨s2, hs2, _⟩
      cases hs2
  | vBool b =>
    simp only [coerceValue]
    constructor
    · rintro ⟨w, hw⟩
      cases hw
    · rintro ⟨s2, hs2, _⟩
      cases hs2

/-- C6: a String-typed field passes text through unchanged and rejects any
non-text scalar — a boolean or an integer yields the type error
"Not a valid string." instead of being silently stringified; on the
`lib/type.py` record with `name = True`, the pass reports exactly the name
type error (and the independently invalid email), coercing nothing. -/
theorem claim_string_no_silent_coercion :
    (∀ s, coerceValue .tString (.vStr s) = .ok (.vStr s)) ∧
    (∀ b, coerceValue .tString (.vBool b) = .error ["Not a valid string."]) ∧
    (∀ n, coerceValue .tString (.vInt n) = .error ["Not a valid string."]) ∧
    recordErrors typeUserSchema noExempt
      [("name", .vBool true), ("age", .vInt 42),
       ("email", .vStr "someone@example..com")] =
      [("name", ["Not a valid string."]),
       ("email", ["Not a valid email address."])] :=
  ⟨fun _ => rfl, fun _ => rfl, fun _ => rfl, rfl⟩

/-- C7: an Integer-typed field accepts a value exactly when it is an
integer or a string of decimal digits optionally preceded by a minus sign
(negatives included: the integer -5 and the string "-5" are accepted);
anything else — the non-numeric string "young", a boolean — is rejected
with the type error "Not a valid integer.". -/
theorem claim_integer_coercion :
    (∀ v : Value, (∃ w, coerceValue .tInteger v = .ok w) ↔ IntSpec v) ∧
    coerceValue .tInteger (.vStr "young") = .error ["Not a valid integer."] ∧
    coerceValue .tInteger (.vInt (-5)) = .ok (.vInt (-5)) ∧
    coerceValue .tInteger (.vStr "-5") = .ok (.vInt (-5)) ∧
    (∀ b, coerceValue .tInteger (.vBool b) =
      .error ["Not a valid integer."]) := by
  refine ⟨?_, rfl, rfl, rfl, fun _ => rfl⟩
  intro v
  cases v with
  | vStr s =>
    constructor
    · rintro ⟨w, hw⟩
      rcases hp : parseIntString s with _ | n
      · simp [coerceValue, hp] at hw
      · obtain ⟨ds, h1, h2, h3⟩ := (parseIntString_some_iff s).mp ⟨n, hp⟩
        exact Or.inr ⟨s, ds, rfl, h1, h2, h3⟩
    · rintro (⟨n, hn⟩ | ⟨s2, ds, hs2, h1, h2, h3⟩)
      · cases hn
      · injection hs2 with h4
        subst h4
        obtain ⟨n, hp⟩ := (parseIntString_some_iff s).mpr ⟨ds, h1, h2, h3⟩
        exact ⟨.vInt n, by simp [coerceValue, hp]⟩
  | vInt n =>
    constructor
    · intro _
      exact Or.inl ⟨n, rfl⟩
    · intro _
      exact ⟨.vInt n, rfl⟩
  | vBool b =>
    constructor
    · rintro ⟨w, hw⟩
      cases hw
    · rintro (⟨n, hn⟩ | ⟨s2, ds, hs2, _⟩)
      · cases hn
      · cases hs2

/-- C8 (counterexample): the `lib/required.py` record
`{"breed": "Winter White"}` contains only a valid, well-typed value for a
declared field of `HamsterSchema`, yet the load fails (on the absent
required `name`) instead of succeeding with the record passed through —
the script itself documents this record as invalid. -/
theorem claim_roundtrip_cex :
    (FieldSpec.mk "breed" .tString false) ∈ hamsterSchema ∧
    wellTyped .tString (.vStr "Winter White") = true ∧
    loadSingle hamsterSchema noExempt [("breed", .vStr "Winter White")] =
      .error [("name", ["Missing data for required field."])] :=
  ⟨by decide, rfl, rfl⟩

/-- C8 (amended): for every schema, record whose entries are well-typed for
the fields they match, AND in which every non-exempted required field is
present, the load succeeds and the output is the input restricted to the
declared fields: declared keys look up to their original values, undeclared
keys are absent (key order irrelevant).  Consequently a schema with only
optional fields loads the empty record to an empty output. -/
theorem claim_roundtrip :
    (∀ (s : Schema) (ex : Exempt) (r : Record),
       (∀ p ∈ r, ∀ f ∈ s, f.name = p.1 → wellTyped f.type_kind p.2 = true) →
       (∀ f ∈ s, f.required = true →
          ex.exempts f.name = true ∨ (lookupField r f.name).isSome = true) →
       (loadSingle s ex r = .ok (recordOutput s ex r) ∧
        (∀ k, (∃ f ∈ s, f.name = k) →
          lookupField (recordOutput s ex r) k = lookupField r k) ∧
        (∀ k, (∀ f ∈ s, f.name ≠ k) →
          lookupField (recordOutput s ex r) k = none))) ∧
    (∀ (s : Schema) (ex : Exempt), (∀ f ∈ s, f.required = false) →
       loadSingle s ex [] = .ok []) := by
  have hmain : ∀ (s : Schema) (ex : Exempt) (r : Record),
      (∀ p ∈ r, ∀ f ∈ s, f.name = p.1 → wellTyped f.type_kind p.2 = true) →
      (∀ f ∈ s, f.required = true →
         ex.exempts f.name = true ∨ (lookupField r f.name).isSome = true) →
      (loadSingle s ex r = .ok (recordOutput s ex r) ∧
       (∀ k, (∃ f ∈ s, f.name = k) →
         lookupField (recordOutput s ex r) k = lookupField r k) ∧
       (∀ k, (∀ f ∈ s, f.name ≠ k) →
         lookupField (recordOutput s ex r) k = none)) := by
    intro s ex r hwt hreq
    refine ⟨(loadSingle_ok_iff s ex r _).mpr
      ⟨recordErrors_eq_nil_of_valid s ex r hwt hreq, rfl⟩, ?_, ?_⟩
    · intro k hdecl
      rcases hl : lookupField r k with _ | v
      · rw [recordOutput, processFields_output_eq]
        exact lookup_out_none_of_lookup_none ex r k hl s
      · rw [recordOutput, processFields_output_eq]
        exact lookup_out_some_of_wellTyped ex r k v hl s hwt hdecl
    · intro k hundecl
      rw [recordOutput, processFields_output_eq]
      exact lookup_out_none_of_undeclared ex r k s hundecl
  refine ⟨hmain, ?_⟩
  intro s ex hopt
  have hout : recordOutput s ex [] = [] := by
    rw [recordOutput, processFields_output_eq, List.filterMap_eq_nil_iff]
    intro f hf
    simp [fieldOutput, lookupField]
  have h1 := (hmain s ex []
    (by intro p hp; cases hp)
    (by intro f hf hr; rw [hopt f hf] at hr; cases hr)).1
  rw [hout] at h1
  exact h1

theorem claim_roundtrip_witness :
    loadSingle pUserSchema noExempt
        [("name", .vStr "Noam"), ("age", .vInt 42)] =
      .ok (recordOutput pUserSchema noExempt
        [("name", .vStr "Noam"), ("age", .vInt 42)]) ∧
    loadSingle contactSchema noExempt [] = .ok [] :=
  ⟨(claim_roundtrip.1 pUserSchema noExempt
      [("name", .vStr "Noam"), ("age", .vInt 42)]
      (by decide) (by decide)).1,
   claim_roundtrip.2 contactSchema noExempt (by decide)⟩

/-- C9: input keys not declared by any schema field are silently ignored:
prepending such an entry changes neither the output nor the report of the
pass, and every output entry and every report entry is keyed by a declared
field name — undeclared keys produce neither an error nor an output
entry. -/
theorem claim_unknown_keys_ignored :
    (∀ (s : Schema) (ex : Exempt) (r : Record) (k : String) (v : Value),
       (∀ f ∈ s, f.name ≠ k) →
       processFields ex ((k, v) :: r) s = processFields ex r s) ∧
    (∀ (s : Schema) (ex : Exempt) (r : Record) (p : String × Value),
       p ∈ recordOutput s ex r → ∃ f ∈ s, f.name = p.1) ∧
    (∀ (s : Schema) (ex : Exempt) (r : Record) (q : String × List String),
       q ∈ recordErrors s ex r → ∃ f ∈ s, f.name = q.1) := by
  refine ⟨?_, ?_, ?_⟩
  · intro s ex r k v h
    exact processFields_ignores_unknown ex r k v s h
  · intro s ex r p hp
    rw [recordOutput, processFields_output_eq] at hp
    obtain ⟨f, hf, he⟩ := List.mem_filterMap.mp hp
    exact ⟨f, hf, (fieldOutput_name he).symm⟩
  · intro s ex r q hq
    rw [recordErrors, processFields_errors_eq] at hq
    obtain ⟨f, hf, he⟩ := List.mem_filterMap.mp hq
    exact ⟨f, hf, (fieldError_name he).symm⟩

theorem claim_unknown_keys_ignored_witness :
    processFields noExempt
        (("favorite_color", Value.vStr "blue") ::
          [("name", Value.vStr "Mr. Wags"),
           ("email", Value.vStr "wags@email.com")]) vetSchema =
      processFields noExempt
        [("name", Value.vStr "Mr. Wags"),
         ("email", Value.vStr "wags@email.com")] vetSchema :=
  claim_unknown_keys_ignored.1 vetSchema noExempt
    [("name", Value.vStr "Mr. Wags"), ("email", Value.vStr "wags@email.com")]
    "favorite_color" (Value.vStr "blue") (by decide)

/-- C10: the empty string is a valid value for a String-typed field with no
validators: on the `lib/builtin.py` record supplying `specialty = ""`, the
pass records no error at all and the empty string appears unchanged in the
specialty position of the output. -/
theorem claim_empty_string_accepted :
    coerceValue .tString (.vStr "") = .ok (.vStr "") ∧
    recordErrors vetSchema noExempt
      [("name", .vStr "Dr. Wags"), ("email", .vStr "wags@email.com"),
       ("specialty", .vStr "")] = [] ∧
    ("specialty", Value.vStr "") ∈ recordOutput vetSchema noExempt
      [("name", .vStr "Dr. Wags"), ("email", .vStr "wags@email.com"),
       ("specialty", .vStr "")] :=
  ⟨rfl, rfl, by decide⟩

end SchemaVal
